import Mathlib

/-
Verification of the document-retrieval engine (Assignments 01-03).

The Python sources are shallowly embedded below:
  * `SimpleDictionary`  — src/Assignment-02/simple_dictionary.py (also used by
    Assignment-01).  The Python object holds a list `buckets` of fixed length
    `size` (never resized); we model the bucket array as a total function
    `Nat → bucket` together with the `size` field, and the bucket index is
    `hashFn key % size` exactly as in `_hash`.  The hash function is a
    parameter (Python string hashing is seeded per process; every statement
    below holds for an arbitrary hash function).
  * Assignment-01 `DocumentSearchEngine.extract_nouns` / `index_document`.
  * Assignment-02 `DocumentSearchEngine.preprocess` / `build_inverted_index` /
    `compute_tf_idf` / `search` / `search_with_tf_idf`.
  * Assignment-03 `binaryIndependenceModel.compute_similarity`.
  * Assignment-03 `proximalNodesModel.build_graph` / `retrieve_documents`.
The NLTK lemmatizer and stop-word list are external resources; they enter the
embedding as parameters (`lemma : String → String`, `sw : List String`).
Real-valued scores are modelled with `ℚ` (the claims under study concern
branch structure and membership, not rounding).
-/

/-- Python `str.lower()`, character by character. -/
def pyLower (s : String) : String := String.mk (s.toList.map Char.toLower)

def wordsAux : List Char → List Char → List String
  | [], acc => if acc.isEmpty then [] else [String.mk acc.reverse]
  | c :: cs, acc =>
      if c.isWhitespace then
        if acc.isEmpty then wordsAux cs [] else String.mk acc.reverse :: wordsAux cs []
      else wordsAux cs (c :: acc)

/-- Python `str.split()`: split on whitespace runs, discarding empty pieces
(so the resulting words are never empty). -/
def splitWs (text : String) : List String :=
  wordsAux text.toList []

/-- Python `word.endswith(suffix)`. -/
def strEndsWith (w suf : String) : Bool := suf.toList.isSuffixOf w.toList

/-- Python `word[0].isupper()`.  `split()` never produces an empty word, so
the out-of-range case (where Python would raise) is unreachable; it is mapped
to `false`. -/
def strFirstUpper (w : String) : Bool :=
  match w.toList with
  | [] => false
  | c :: _ => c.isUpper

/-- Python `needle in hay` on strings, at the character-list level. -/
def charsInfix (needle : List Char) : List Char → Bool
  | [] => needle.isEmpty
  | c :: rest => needle.isPrefixOf (c :: rest) || charsInfix needle rest

/-! ## SimpleDictionary (src/Assignment-02/simple_dictionary.py) -/

structure SimpleDictionary (K : Type) (V : Type) where
  size : Nat
  hashFn : K → Nat
  buckets : Nat → List (K × List V)

/-- `SimpleDictionary.__init__` with the default `size=100`; all buckets empty. -/
def SimpleDictionary.empty {K V : Type} (h : K → Nat) : SimpleDictionary K V :=
  ⟨100, h, fun _ => []⟩

/-- `_hash(self, key)`: `hash(key) % self.size`. -/
def SimpleDictionary.bucketIdx {K V : Type} (s : SimpleDictionary K V) (k : K) : Nat :=
  s.hashFn k % s.size

/-- Inner loop of `add`: scan the chain; on the first matching key replace the
pair with `(key, v + [value])`; otherwise append `(key, [value])` at the end. -/
def addToBucket {K V : Type} [DecidableEq K] (k : K) (v : V) :
    List (K × List V) → List (K × List V)
  | [] => [(k, [v])]
  | (k', vs) :: rest =>
      if k' = k then (k, vs ++ [v]) :: rest else (k', vs) :: addToBucket k v rest

/-- Inner loop of `get`: first matching key's value list, else `[]`. -/
def findVal {K V : Type} [DecidableEq K] (k : K) : List (K × List V) → List V
  | [] => []
  | (k', vs) :: rest => if k' = k then vs else findVal k rest

/-- `SimpleDictionary.add`. -/
def SimpleDictionary.add {K V : Type} [DecidableEq K]
    (s : SimpleDictionary K V) (k : K) (v : V) : SimpleDictionary K V :=
  { s with buckets :=
      Function.update s.buckets (s.bucketIdx k) (addToBucket k v (s.buckets (s.bucketIdx k))) }

/-- `SimpleDictionary.get`. -/
def SimpleDictionary.get {K V : Type} [DecidableEq K]
    (s : SimpleDictionary K V) (k : K) : List V :=
  findVal k (s.buckets (s.bucketIdx k))

/-! ## Python dict as an insertion-ordered association list

Python dicts preserve insertion order; updating an existing key keeps its
position, a new key is appended at the end. -/

/-- `m.get(k, dflt)`. -/
def dictGetD {K V : Type} [DecidableEq K] (k : K) (dflt : V) : List (K × V) → V
  | [] => dflt
  | (k', v) :: rest => if k' = k then v else dictGetD k dflt rest

/-- `m[k] = v`. -/
def dictSet {K V : Type} [DecidableEq K] (k : K) (v : V) : List (K × V) → List (K × V)
  | [] => [(k, v)]
  | (k', v') :: rest => if k' = k then (k, v) :: rest else (k', v') :: dictSet k v rest

/-- `k in m`. -/
def dictHasKey {K V : Type} [DecidableEq K] (k : K) : List (K × V) → Bool
  | [] => false
  | (k', _) :: rest => if k' = k then true else dictHasKey k rest

/-! ## Python `sorted(items, key=lambda x: x[1], reverse=True)`

Python's sort is stable; with `reverse=True` it yields the scores in
descending order with equal-score items keeping their original relative
order.  A stable sort's output is unique, so the insertion sort below (which
inserts each later element after any equal-score earlier ones) computes
exactly the same list. -/

def insertDesc {α : Type} [LinearOrder α] (p : Nat × α) : List (Nat × α) → List (Nat × α)
  | [] => [p]
  | q :: rest => if q.2 < p.2 then p :: q :: rest else q :: insertDesc p rest

def sortDesc {α : Type} [LinearOrder α] (l : List (Nat × α)) : List (Nat × α) :=
  l.foldl (fun acc p => insertDesc p acc) []

/-! ## Assignment-02 `compute_tf_idf`: the integer logarithm surrogate

Python:
```
idf = 0
temp_doc_count = doc_count
while temp_doc_count > 1:
    idf += 1
    temp_doc_count //= (1 + df)
```
`d` below is the divisor `1 + df`.  The extra guard `1 < d` makes the Lean
function total; for `d ≤ 1` the Python loop would never terminate, but in
`compute_tf_idf` every document frequency satisfies `df ≥ 1`, so `d ≥ 2` and
the guard is never the deciding conjunct on the code's real inputs. -/

def idfLoop (d : Nat) (n : Nat) : Nat :=
  if h : 1 < n ∧ 1 < d then 1 + idfLoop d (n / d) else 0
termination_by n
decreasing_by exact Nat.div_lt_self (by omega) h.2

/-! ## Assignment-01 `extract_nouns` and the content index

`lem` stands for `lemmatizer.lemmatize` (an external NLTK resource, hence a
parameter; the spec allows a default identity implementation). -/

def nounSuffixes : List String :=
  ["ion", "ment", "ness", "ity", "ty", "ance", "ence", "ure", "ship", "hood",
   "er", "or", "ist", "al", "age", "cy", "dom"]

/-- `word[0].isupper() or word.endswith(noun_suffixes)`, applied to the
already lemmatized, lower-cased word. -/
def isNounLike (w : String) : Bool :=
  strFirstUpper w || nounSuffixes.any (fun suf => strEndsWith w suf)

def extractNounsGo (lem : String → String) (isTitle : Bool) : List String → List String
  | [] => []
  | w :: ws =>
      let w' := lem (pyLower w)
      if isTitle then w' :: extractNounsGo lem isTitle ws
      else if isNounLike w' then w' :: extractNounsGo lem isTitle ws
      else extractNounsGo lem isTitle ws

/-- `DocumentSearchEngine.extract_nouns(text, isTitle)` (Assignment-01). -/
def extractNouns (lem : String → String) (text : String) (isTitle : Bool) : List String :=
  extractNounsGo lem isTitle (splitWs text)

/-- One document's contribution to an index: `for noun in nouns: index.add(noun, doc_id)`. -/
def indexTokens (s : SimpleDictionary String Nat) (docId : Nat) (toks : List String) :
    SimpleDictionary String Nat :=
  toks.foldl (fun st tok => st.add tok docId) s

def buildContentIndexAux (lem : String → String) (s : SimpleDictionary String Nat)
    (startId : Nat) : List String → SimpleDictionary String Nat
  | [] => s
  | c :: cs =>
      buildContentIndexAux lem (indexTokens s startId (extractNouns lem c false)) (startId + 1) cs

/-- Assignment-01 content index over a corpus of content strings, ids `0..n-1`
in load order (`load_and_index_documents` + `index_document`). -/
def buildContentIndex (lem : String → String) (hs : String → Nat)
    (contents : List String) : SimpleDictionary String Nat :=
  buildContentIndexAux lem (SimpleDictionary.empty hs) 0 contents

/-- Assignment-01 `search` query preprocessing followed by the content-scoped
term-frequency scoring; returns the bare ranked ids as the Python code does. -/
def search01 (lem : String → String) (sw : List String) (hs : String → Nat)
    (contents : List String) (q : String) : List Nat :=
  let index := buildContentIndex lem hs contents
  let qws := ((splitWs (pyLower q)).filter (fun w => decide (w ∉ sw))).map lem
  if qws = [] then []
  else
    let scores := qws.foldl
      (fun sc w => (index.get w).foldl (fun sc2 i => dictSet i (dictGetD i 0 sc2 + 1) sc2) sc) []
    (sortDesc scores).map Prod.fst

/-! ## Assignment-02 engine -/

/-- Assignment-02 `preprocess`: lower-case, whitespace split, drop stop-words,
lemmatize. -/
def preprocess02 (lem : String → String) (sw : List String) (text : String) : List String :=
  ((splitWs (pyLower text)).filter (fun w => decide (w ∉ sw))).map lem

/-- `load_documents`: store `(title, content)` under key `doc_id`.  The key
hash is the identity, as Python's `hash` on the small non-negative ids used
here. -/
def loadDocsAux (s : SimpleDictionary Nat (String × String)) (i : Nat) :
    List (String × String) → SimpleDictionary Nat (String × String)
  | [] => s
  | d :: ds => loadDocsAux (s.add i d) (i + 1) ds

def loadDocuments02 (docs : List (String × String)) : SimpleDictionary Nat (String × String) :=
  loadDocsAux (SimpleDictionary.empty (fun n => n)) 0 docs

/-- `build_inverted_index`: iterate `doc_id in range(len(self.documents.buckets))`
(the fixed bucket count); for present documents index `title + " " + content`. -/
def buildInvertedIndex02 (lem : String → String) (sw : List String) (hs : String → Nat)
    (docs : List (String × String)) : SimpleDictionary String Nat :=
  let store := loadDocuments02 docs
  (List.range store.size).foldl
    (fun inv i =>
      match store.get i with
      | [] => inv
      | d :: _ =>
          (preprocess02 lem sw (d.1 ++ " " ++ d.2)).foldl (fun inv2 t => inv2.add t i) inv)
    (SimpleDictionary.empty hs)

/-- `term_counts[term] = term_counts.get(term, 0) + 1` over a token list. -/
def termCounts (terms : List String) : List (String × Nat) :=
  terms.foldl (fun m t => dictSet t (dictGetD t 0 m + 1) m) []

/-- `sum(len(bucket) for bucket in self.documents.buckets)`. -/
def storeCount (s : SimpleDictionary Nat (String × String)) : Nat :=
  ((List.range s.size).map (fun i => (s.buckets i).length)).sum

/-- First loop of `compute_tf_idf`: per present document compute the TF map
(`count/total_terms`) and bump the per-term document frequency; returns
`(term_doc_frequency, tf_idf_scores)`.  The Python loop fills both in one
pass over `term_counts.items()`; the two accumulators are independent, so the
`map`/`foldl` split below produces identical values. -/
def tfIdfFirstPass (lem : String → String) (sw : List String)
    (store : SimpleDictionary Nat (String × String)) :
    List (String × Nat) × SimpleDictionary Nat (List (String × ℚ)) :=
  (List.range store.size).foldl
    (fun acc i =>
      match store.get i with
      | [] => acc
      | d :: _ =>
          let terms := preprocess02 lem sw (d.1 ++ " " ++ d.2)
          let tc := termCounts terms
          let tdf2 := tc.foldl (fun m p => dictSet p.1 (dictGetD p.1 0 m + 1) m) acc.1
          let tfmap := tc.map (fun p => (p.1, (p.2 : ℚ) / (terms.length : ℚ)))
          (tdf2, acc.2.add i tfmap))
    ([], SimpleDictionary.empty (fun n => n))

/-- Second loop of `compute_tf_idf` touches a stored entry with
`doc_scores[0][term] *= idf` — an in-place mutation of the dict object that
every element of the stored value list aliases — followed by
`self.tf_idf_scores.add(doc_id, doc_scores[0])`, which appends one more
reference to that same object.  Observably the value list becomes
`length + 1` copies of the updated map (and a fresh `[(k, [m])]` entry would
be created for an absent key, though the caller's guard makes that
unreachable).  `mutateBucket` mirrors `addToBucket` with that behaviour. -/
def mutateBucket (k : Nat) (m : List (String × ℚ)) :
    List (Nat × List (List (String × ℚ))) → List (Nat × List (List (String × ℚ)))
  | [] => [(k, [m])]
  | (k', vs) :: rest =>
      if k' = k then (k, List.replicate (vs.length + 1) m) :: rest
      else (k', vs) :: mutateBucket k m rest

def tfMutateAdd (s : SimpleDictionary Nat (List (String × ℚ))) (k : Nat)
    (m : List (String × ℚ)) : SimpleDictionary Nat (List (String × ℚ)) :=
  { s with buckets :=
      Function.update s.buckets (s.bucketIdx k) (mutateBucket k m (s.buckets (s.bucketIdx k))) }

/-- Second loop of `compute_tf_idf`: per `(term, df)` in insertion order,
compute the iterative IDF and rescale the term's TF entry in every document
map that contains the term (`doc_id in range(len(self.tf_idf_scores.buckets))`). -/
def tfIdfSecondPass (docCount : Nat) (tdf : List (String × Nat))
    (tfidf0 : SimpleDictionary Nat (List (String × ℚ))) :
    SimpleDictionary Nat (List (String × ℚ)) :=
  tdf.foldl
    (fun s p =>
      let idf := idfLoop (1 + p.2) docCount
      (List.range s.size).foldl
        (fun s2 i =>
          match s2.get i with
          | [] => s2
          | m :: _ =>
              if dictHasKey p.1 m then
                tfMutateAdd s2 i (dictSet p.1 (dictGetD p.1 0 m * (idf : ℚ)) m)
              else s2)
        s)
    tfidf0

/-- `compute_tf_idf` end to end (after `load_documents`). -/
def computeTfIdf02 (lem : String → String) (sw : List String)
    (docs : List (String × String)) : SimpleDictionary Nat (List (String × ℚ)) :=
  let store := loadDocuments02 docs
  let fp := tfIdfFirstPass lem sw store
  tfIdfSecondPass (storeCount store) fp.1 fp.2

/-- Assignment-02 `search`: term-frequency scoring over the inverted index,
then the stable descending sort on scores. -/
def search02 (lem : String → String) (sw : List String) (hs : String → Nat)
    (docs : List (String × String)) (q : String) : List (Nat × Nat) :=
  let inv := buildInvertedIndex02 lem sw hs docs
  let qts := preprocess02 lem sw q
  let scores := qts.foldl
    (fun sc t => (inv.get t).foldl (fun sc2 i => dictSet i (dictGetD i 0 sc2 + 1) sc2) sc) []
  sortDesc scores

/-- Assignment-02 `search_with_tf_idf`. -/
def searchTfIdf02 (lem : String → String) (sw : List String)
    (docs : List (String × String)) (q : String) : List (Nat × ℚ) :=
  let tfidf := computeTfIdf02 lem sw docs
  let qts := preprocess02 lem sw q
  let scores := qts.foldl
    (fun sc t =>
      (List.range tfidf.size).foldl
        (fun sc2 i =>
          match tfidf.get i with
          | [] => sc2
          | m :: _ =>
              if dictHasKey t m then dictSet i (dictGetD i 0 sc2 + dictGetD t 0 m) sc2
              else sc2)
        sc)
    []
  sortDesc scores

/-! ## Assignment-03 Binary Independence Model -/

/-- `compute_similarity(doc_vector, query_vector)`: Dice coefficient with the
division-by-zero guard; `intersection` counts positions where `d == q == 1`. -/
def computeSimilarity (docVec queryVec : List Nat) : ℚ :=
  let inter := List.countP (fun p => p.1 == 1 && p.2 == 1) (docVec.zip queryVec)
  let docSum := docVec.sum
  let querySum := queryVec.sum
  if 0 < docSum + querySum then (2 * inter : ℚ) / ((docSum + querySum : Nat) : ℚ) else 0

/-! ## Assignment-03 proximal-nodes model -/

/-- Python `str.isalnum()`. -/
def pyIsAlnum (w : String) : Bool :=
  w ≠ "" && w.toList.all (fun c => c.isAlphanum)

/-- Assignment-03 `preprocess`: lower-case split, keep alphanumeric
non-stop-words, lemmatize. -/
def preprocess03 (lem : String → String) (sw : List String) (text : String) : List String :=
  ((splitWs (pyLower text)).filter (fun w => pyIsAlnum w && decide (w ∉ sw))).map lem

/-- Graph nodes: a term string or a synthetic `doc_<id>` node.  The two are
disjoint in the source because `preprocess` keeps only alphanumeric tokens,
so no term ever starts with `doc_`. -/
inductive PNode where
  | term (s : String)
  | doc (i : Nat)
deriving DecidableEq

/-- The Python graph is a dict from node to a set of neighbours; we keep an
insertion-ordered association list with deduplicated neighbour lists (only
membership in a neighbour set is ever observable through `retrieve_documents`
up to the result set). -/
abbrev PNGraph := List (PNode × List PNode)

/-- `graph.get(n, [])` (neighbour set of `n`, empty when absent). -/
def adjPN (g : PNGraph) (n : PNode) : List PNode :=
  match g with
  | [] => []
  | (k, ns) :: rest => if k = n then ns else adjPN rest n

def pnKeys (g : PNGraph) : List PNode := g.map Prod.fst

/-- `add_node`: `if node not in graph: graph[node] = set()`. -/
def addNodePN (g : PNGraph) (n : PNode) : PNGraph :=
  if n ∈ pnKeys g then g else g ++ [(n, [])]

/-- `set.add` on a neighbour set. -/
def insertNbr (ns : List PNode) (m : PNode) : List PNode :=
  if m ∈ ns then ns else ns ++ [m]

/-- `graph[n].add(m)` (no-op when `n` has no entry; `add_edge` always calls
`add_node` first). -/
def addNbrPN (n m : PNode) : PNGraph → PNGraph
  | [] => []
  | (k, ns) :: rest =>
      if k = n then (k, insertNbr ns m) :: addNbrPN n m rest
      else (k, ns) :: addNbrPN n m rest

/-- `add_edge(node1, node2)`. -/
def addEdgePN (g : PNGraph) (a b : PNode) : PNGraph :=
  addNbrPN b a (addNbrPN a b (addNodePN (addNodePN g a) b))

/-- `itertools.combinations(terms, 2)` in order. -/
def combs2 : List String → List (String × String)
  | [] => []
  | x :: xs => xs.map (fun y => (x, y)) ++ combs2 xs

/-- `for term in terms: add_edge(term, document_node)`. -/
def addDocEdges (g : PNGraph) (docNode : PNode) (terms : List String) : PNGraph :=
  terms.foldl (fun g2 t => addEdgePN g2 (PNode.term t) docNode) g

/-- `for term1, term2 in combinations(terms, 2): add_edge(term1, term2)`. -/
def addTermEdges (g : PNGraph) (terms : List String) : PNGraph :=
  (combs2 terms).foldl (fun g2 p => addEdgePN g2 (PNode.term p.1) (PNode.term p.2)) g

def buildGraphAux (lem : String → String) (sw : List String) (g : PNGraph) (i : Nat) :
    List String → PNGraph
  | [] => g
  | c :: cs =>
      let terms := preprocess03 lem sw c
      buildGraphAux lem sw (addTermEdges (addDocEdges g (PNode.doc i) terms) terms) (i + 1) cs

/-- `build_graph(documents)`. -/
def buildGraphPN (lem : String → String) (sw : List String) (docsList : List String) : PNGraph :=
  buildGraphAux lem sw [] 0 docsList

/-- The substring double-check of `retrieve_documents`:
`any(term in documents[doc_index].lower() for term in proximal_nodes)`. -/
def pnFilter (qs : List String) (docsList : List String) (j : Nat) : Bool :=
  qs.any (fun t => charsInfix t.toList (pyLower (docsList.getD j "")).toList)

def isTermNode : PNode → Bool
  | PNode.term _ => true
  | PNode.doc _ => false

/-- The neighbours appended to the BFS queue (`else: queue.append(neighbor)`). -/
def termNeighbors (ns : List PNode) : List PNode := ns.filter isTermNode

/-- The document-node half of the neighbour loop: whenever a `doc_` neighbour
passes the substring check it is added to the `connected_documents` set. -/
def docCheckFold (qs : List String) (docsList : List String) (ns : List PNode)
    (connected : List Nat) : List Nat :=
  ns.foldl
    (fun c nb =>
      match nb with
      | PNode.doc j => if pnFilter qs docsList j then (if j ∈ c then c else c ++ [j]) else c
      | PNode.term _ => c)
    connected

def unvisitedKeyCount (g : PNGraph) (visited : List PNode) : Nat :=
  ((pnKeys g).toFinset \ visited.toFinset).card

/-- The `while queue:` loop of `retrieve_documents`.  The Python body walks
the neighbour list once, appending term neighbours to the queue and filtering
document neighbours into the result set; the two accumulators are disjoint,
so the split into `termNeighbors` and `docCheckFold` is observably the same
single pass. -/
def bfs (g : PNGraph) (qs : List String) (docsList : List String) :
    List PNode → List PNode → List Nat → List PNode × List Nat
  | [], visited, connected => (visited, connected)
  | n :: rest, visited, connected =>
      if hnv : n ∈ visited then bfs g qs docsList rest visited connected
      else
        bfs g qs docsList (rest ++ termNeighbors (adjPN g n)) (visited ++ [n])
          (docCheckFold qs docsList (adjPN g n) connected)
termination_by queue visited _ => (unvisitedKeyCount g visited, queue.length)
decreasing_by
· apply Prod.Lex.right
  simp
· by_cases hk : n ∈ pnKeys g
  · apply Prod.Lex.left
    unfold unvisitedKeyCount
    apply Finset.card_lt_card
    constructor
    · intro x hx
      simp only [Finset.mem_sdiff, List.mem_toFinset, List.mem_append,
        List.mem_singleton] at hx ⊢
      exact ⟨hx.1, fun hv => hx.2 (Or.inl hv)⟩
    · intro hsub
      have hn1 : n ∈ (pnKeys g).toFinset \ visited.toFinset := by
        simp only [Finset.mem_sdiff, List.mem_toFinset]
        exact ⟨hk, hnv⟩
      have hn2 := hsub hn1
      simp only [Finset.mem_sdiff, List.mem_toFinset, List.mem_append,
        List.mem_singleton] at hn2
      exact hn2.2 (Or.inr trivial)
  · have hcnt : unvisitedKeyCount g (visited ++ [n]) = unvisitedKeyCount g visited := by
      unfold unvisitedKeyCount
      congr 1
      apply Finset.ext
      intro x
      simp only [Finset.mem_sdiff, List.mem_toFinset, List.mem_append, List.mem_singleton]
      constructor
      · intro hx
        exact ⟨hx.1, fun hv => hx.2 (Or.inl hv)⟩
      · intro hx
        refine ⟨hx.1, fun hv => ?_⟩
        rcases hv with hv | rfl
        · exact hx.2 hv
        · exact hk hx.1
    rw [hcnt]
    apply Prod.Lex.right
    have hadj : ∀ g2 : PNGraph, n ∉ pnKeys g2 → adjPN g2 n = [] := by
      intro g2 hk2
      induction g2 with
      | nil => rfl
      | cons p t ih =>
          have hp : p.1 ≠ n := by
            intro hpn
            exact hk2 (by simp [pnKeys, hpn])
          have ht : n ∉ pnKeys t := by
            intro hnt
            apply hk2
            simp only [pnKeys, List.map_cons, List.mem_cons]
            exact Or.inr hnt
          simpa [adjPN, hp] using ih ht
    simp [hadj g hk, termNeighbors]

/-- Decimal value of a digit run; `none` on any non-digit. -/
def digitsToNatAux : List Char → Nat → Option Nat
  | [], acc => some acc
  | c :: rest, acc =>
      if c.isDigit then digitsToNatAux rest (acc * 10 + (c.toNat - 48)) else none

/-- All-digit run with no leading zero: exactly the strings Python's
`str(i)` produces for a non-negative `i`, with that value. -/
def canonNatOfChars (cs : List Char) : Option Nat :=
  match cs with
  | [] => none
  | c :: rest =>
      if c = '0' ∧ rest ≠ [] then none
      else digitsToNatAux (c :: rest) 0

/-- Which graph node a raw query string denotes.  Python's nodes live in one
string namespace: `queue = list(proximal_nodes)` seeds the traversal with the
raw query strings, and `graph.get` looks them up by string equality.  A query
string equal to a document-node name — exactly `doc_` followed by the
canonical decimal of `i`, as produced by the f-string in `build_graph` —
therefore starts the traversal at that document node; every other string
denotes the term node of that name.  (Graph construction itself never
confuses the two: `preprocess` keeps only alphanumeric tokens, so no term
node's name starts with `doc_`.) -/
def nodeOfName (s : String) : PNode :=
  if s.toList.take 4 = ['d', 'o', 'c', '_'] then
    match canonNatOfChars (s.toList.drop 4) with
    | some i => PNode.doc i
    | none => PNode.term s
  else PNode.term s

/-- The initial BFS queue: `queue = list(proximal_nodes)`, with each raw
query string mapped to the node it denotes. -/
def pnSeeds (qs : List String) : List PNode := qs.map nodeOfName

/-- Final visited set of `retrieve_documents` starting from the query nodes. -/
def visitedPN (g : PNGraph) (qs : List String) (docsList : List String) : List PNode :=
  (bfs g qs docsList (pnSeeds qs) [] []).1

/-- `retrieve_documents(proximal_nodes, graph, documents)`: result document
ids (the Python function returns the set of `doc_<id>` names). -/
def retrievePN (g : PNGraph) (qs : List String) (docsList : List String) : List Nat :=
  (bfs g qs docsList (pnSeeds qs) [] []).2

/-- Symmetry of the term-document graph. -/
def SymmGraph (g : PNGraph) : Prop :=
  ∀ a b : PNode, b ∈ adjPN g a ↔ a ∈ adjPN g b

/-- One traversal step: the BFS enqueues exactly the term-node neighbours of
the node it is processing (document neighbours are checked, never enqueued). -/
def pnStep (g : PNGraph) (x y : PNode) : Prop :=
  y ∈ adjPN g x ∧ isTermNode y = true

/-- A node reachable from one of the query-string seed nodes through
term-node steps: the nodes the breadth-first traversal can visit. -/
def PNReach (g : PNGraph) (qs : List String) (x : PNode) : Prop :=
  ∃ q ∈ qs, Relation.ReflTransGen (pnStep g) (nodeOfName q) x

/-! ## The two-document example corpus used by the spec's scenarios -/

def corpusCD : List (String × String) :=
  [("Cats", "Cats are small animals."), ("Dogs", "Dogs are loyal animals.")]

/-- The same corpus as a list of raw document texts (Assignment-03 loads
whole documents without a separate title). -/
def docsCD : List String :=
  ["Cats are small animals.", "Dogs are loyal animals."]

/-- A corpus of 101 documents, used to exhibit the fixed-bucket-count
truncation of the Assignment-02 index builder. -/
def corpus101 : List (String × String) := List.replicate 101 ("t", "c")

/-! ## Basic lemmas about the store -/

theorem findVal_addToBucket_same {K V : Type} [DecidableEq K] (k : K) (v : V)
    (b : List (K × List V)) : findVal k (addToBucket k v b) = findVal k b ++ [v] := by
  induction b with
  | nil => simp [findVal, addToBucket]
  | cons p rest ih =>
      obtain ⟨k', vs⟩ := p
      by_cases h : k' = k
      · subst h; simp [findVal, addToBucket]
      · simp [findVal, addToBucket, h, ih]

theorem findVal_addToBucket_ne {K V : Type} [DecidableEq K] {k k' : K} (v : V)
    (hne : k ≠ k') (b : List (K × List V)) :
    findVal k' (addToBucket k v b) = findVal k' b := by
  induction b with
  | nil => simp [findVal, addToBucket, hne]
  | cons p rest ih =>
      obtain ⟨k'', vs⟩ := p
      by_cases h : k'' = k
      · subst h; simp [findVal, addToBucket, hne]
      · by_cases h2 : k'' = k'
        · subst h2; simp [findVal, addToBucket, h]
        · simp [findVal, addToBucket, h, h2, ih]

theorem SimpleDictionary.get_add_same {K V : Type} [DecidableEq K]
    (s : SimpleDictionary K V) (k : K) (v : V) :
    (s.add k v).get k = s.get k ++ [v] := by
  unfold SimpleDictionary.get SimpleDictionary.add
  simp only [SimpleDictionary.bucketIdx, Function.update_same]
  exact findVal_addToBucket_same k v _

theorem SimpleDictionary.get_add_ne {K V : Type} [DecidableEq K]
    (s : SimpleDictionary K V) {k k' : K} (v : V) (hne : k ≠ k') :
    (s.add k v).get k' = s.get k' := by
  simp only [SimpleDictionary.get, SimpleDictionary.add, SimpleDictionary.bucketIdx]
  by_cases hidx : s.hashFn k' % s.size = s.hashFn k % s.size
  · rw [hidx, Function.update_same]
    exact findVal_addToBucket_ne v hne _
  · rw [Function.update_noteq hidx]

theorem SimpleDictionary.get_empty {K V : Type} [DecidableEq K]
    (h : K → Nat) (k : K) : (SimpleDictionary.empty (V := V) h).get k = [] := rfl

/-- Any value found after an `add` was already present or is the added one. -/
theorem SimpleDictionary.mem_get_add {K V : Type} [DecidableEq K]
    {s : SimpleDictionary K V} {k t : K} {v x : V}
    (hx : x ∈ (s.add k v).get t) : x ∈ s.get t ∨ x = v := by
  by_cases h : k = t
  · subst h
    rw [SimpleDictionary.get_add_same] at hx
    rcases List.mem_append.mp hx with h1 | h1
    · exact Or.inl h1
    · exact Or.inr (List.mem_singleton.mp h1)
  · rw [SimpleDictionary.get_add_ne s v h] at hx
    exact Or.inl hx

/-- C2: the Associative Store's `add(k, v)` appends `v` at the end of the value
sequence for `k` (creating the entry if absent), and `get(k)` totally returns
the value sequence, with `[]` for an absent key; in particular on a fresh store
`add("x",1); add("x",2); get("x") = [1,2]` and `get("missing") = []`.  Stated
for every bucket-hash function and every store state. -/
theorem simpleDictionary_add_get_spec :
    (∀ (K V : Type) (_ : DecidableEq K) (s : SimpleDictionary K V) (k : K) (v : V),
        (s.add k v).get k = s.get k ++ [v]) ∧
    (∀ (K V : Type) (_ : DecidableEq K) (h : K → Nat) (k : K),
        (SimpleDictionary.empty (V := V) h).get k = []) ∧
    (∀ h : String → Nat,
        (((SimpleDictionary.empty (V := Nat) h).add "x" 1).add "x" 2).get "x" = [1, 2]) ∧
    (∀ h : String → Nat,
        (((SimpleDictionary.empty (V := Nat) h).add "x" 1).add "x" 2).get "missing" = []) := by
  refine ⟨fun K V _ s k v => SimpleDictionary.get_add_same s k v,
          fun K V _ h k => SimpleDictionary.get_empty h k, fun h => ?_, fun h => ?_⟩
  · rw [SimpleDictionary.get_add_same, SimpleDictionary.get_add_same,
      SimpleDictionary.get_empty]
    rfl
  · rw [SimpleDictionary.get_add_ne _ _ (by decide),
      SimpleDictionary.get_add_ne _ _ (by decide), SimpleDictionary.get_empty]

/-! ## C3: the iterative integer IDF -/

theorem idfLoop_div_pow (d : Nat) (hd : 1 < d) (n : Nat) :
    n / d ^ idfLoop d n ≤ 1 ∧
      (0 < idfLoop d n → 1 < n / d ^ (idfLoop d n - 1)) := by
  induction n using Nat.strong_induction_on with
  | _ n ih =>
      rw [idfLoop]
      by_cases hn : 1 < n
      · rw [dif_pos ⟨hn, hd⟩]
        obtain ⟨h1, h2⟩ := ih (n / d) (Nat.div_lt_self (by omega) hd)
        have hsplit : ∀ k : Nat, n / d ^ (1 + k) = (n / d) / d ^ k := by
          intro k
          rw [Nat.add_comm, pow_succ', Nat.div_div_eq_div_mul]
        constructor
        · rw [hsplit]
          exact h1
        · intro _
          rcases Nat.eq_zero_or_pos (idfLoop d (n / d)) with hk | hk
          · rw [hk]
            simpa using hn
          · have h3 := h2 hk
            have : 1 + idfLoop d (n / d) - 1 = 1 + (idfLoop d (n / d) - 1) := by omega
            rw [this, hsplit]
            exact h3
      · rw [dif_neg (by omega)]
        constructor
        · simpa using (by omega : n ≤ 1)
        · intro h
          exact absurd h (by omega)

/-- C3: for every document frequency `df ≥ 1` and every total document count,
the IDF factor computed by `compute_tf_idf`'s custom loop satisfies the
loop's defining equation (so the iteration terminates and `idfLoop` is its
value), and it is exactly the number of floor-divisions of the document count
by `1 + df` needed to bring the running value to `≤ 1`: after `idfLoop`
divisions the value is `≤ 1`, and (whenever at least one iteration ran)
after one division fewer it is still `> 1`. -/
theorem idfLoop_is_iteration_count (df n : Nat) (hdf : 1 ≤ df) :
    (idfLoop (1 + df) n =
      if 1 < n then 1 + idfLoop (1 + df) (n / (1 + df)) else 0) ∧
    n / (1 + df) ^ idfLoop (1 + df) n ≤ 1 ∧
    (0 < idfLoop (1 + df) n → 1 < n / (1 + df) ^ (idfLoop (1 + df) n - 1)) := by
  have hd : 1 < 1 + df := by omega
  refine ⟨?_, idfLoop_div_pow (1 + df) hd n⟩
  rw [idfLoop]
  by_cases hn : 1 < n
  · rw [dif_pos ⟨hn, hd⟩, if_pos hn]
  · rw [dif_neg (by omega), if_neg hn]

/-- C3 witness: `df = 1`, document count 10; the loop runs 3 times. -/
theorem idfLoop_is_iteration_count_witness :
    1 ≤ 1 ∧
      ((idfLoop (1 + 1) 10 =
          if 1 < 10 then 1 + idfLoop (1 + 1) (10 / (1 + 1)) else 0) ∧
        10 / (1 + 1) ^ idfLoop (1 + 1) 10 ≤ 1 ∧
        (0 < idfLoop (1 + 1) 10 → 1 < 10 / (1 + 1) ^ (idfLoop (1 + 1) 10 - 1))) :=
  ⟨by decide, idfLoop_is_iteration_count 1 10 (by decide)⟩

/-! ## C5: the noun heuristic checks the normalized token, not the source -/

theorem extractNounsGo_false_eq (lem : String → String) (l : List String) :
    extractNounsGo lem false l = (l.map (fun w => lem (pyLower w))).filter isNounLike := by
  induction l with
  | nil => rfl
  | cons w ws ih =>
      simp only [extractNounsGo, List.map_cons, List.filter_cons]
      by_cases h : isNounLike (lem (pyLower w))
      · simp [h, ih]
      · simp [h, ih]

theorem extractNounsGo_true_eq (lem : String → String) (l : List String) :
    extractNounsGo lem true l = l.map (fun w => lem (pyLower w)) := by
  induction l with
  | nil => rfl
  | cons w ws ih => simp [extractNounsGo, ih]

/-- C5 counterexample: the source token `"Cats"` is capitalized in the source
text, yet the content filter drops it (with the identity lemmatizer), because
the capitalization test runs on the already lower-cased word: the claimed
"capitalized in the source text ⇒ kept" direction is false. -/
theorem extractNouns_capitalized_dropped :
    strFirstUpper "Cats" = true ∧ extractNouns id "Cats" false = [] := by
  constructor
  · decide
  · decide

/-- C5 amended: for content text the filter keeps exactly the tokens whose
normalized form (lemmatized lower-cased word) has an uppercase first
character or ends with one of the fixed suffixes `ion, ment, ness, ity, ty,
ance, ence, ure, ship, hood, er, or, ist, al, age, cy, dom` — capitalization
in the source text plays no role, since the word is lower-cased before the
test; for title text every normalized term is kept (the filter is
bypassed). -/
theorem extractNouns_filter_spec (lem : String → String) (text : String) :
    extractNouns lem text false =
      ((splitWs text).map (fun w => lem (pyLower w))).filter isNounLike ∧
    extractNouns lem text true = (splitWs text).map (fun w => lem (pyLower w)) :=
  ⟨extractNounsGo_false_eq lem (splitWs text), extractNounsGo_true_eq lem (splitWs text)⟩

/-! ## C7: Dice similarity, division-by-zero handling -/

/-- C7: the Dice similarity equals `2·|intersection| / (|docVector| + |queryVector|)`
whenever the denominator is positive — and there the denominator is nonzero,
so the division is well defined — and it is 0 when both magnitudes are 0;
the function is total, so no error can propagate. -/
theorem computeSimilarity_spec (dv qv : List Nat) :
    (dv.sum + qv.sum = 0 → computeSimilarity dv qv = 0) ∧
    (0 < dv.sum + qv.sum →
      computeSimilarity dv qv =
        2 * (List.countP (fun p => p.1 == 1 && p.2 == 1) (dv.zip qv) : ℚ) /
          ((dv.sum + qv.sum : Nat) : ℚ) ∧
      ((dv.sum + qv.sum : Nat) : ℚ) ≠ 0) := by
  constructor
  · intro h
    unfold computeSimilarity
    rw [if_neg (by omega)]
  · intro h
    unfold computeSimilarity
    rw [if_pos h]
    exact ⟨rfl, Nat.cast_ne_zero.mpr (by omega)⟩

/-- C7 witness: both branches at concrete vectors. -/
theorem computeSimilarity_spec_witness :
    (([] : List Nat).sum + ([] : List Nat).sum = 0 ∧ computeSimilarity [] [] = 0) ∧
    (0 < [1, 0].sum + [1, 1].sum ∧
      computeSimilarity [1, 0] [1, 1] =
        2 * (List.countP (fun p => p.1 == 1 && p.2 == 1) ([1, 0].zip [1, 1]) : ℚ) /
          (([1, 0].sum + [1, 1].sum : Nat) : ℚ)) :=
  ⟨⟨by decide, (computeSimilarity_spec [] []).1 (by decide)⟩,
   ⟨by decide, ((computeSimilarity_spec [1, 0] [1, 1]).2 (by decide)).1⟩⟩

/-! ## Lemmas about the stable descending sort -/

theorem mem_insertDesc {α : Type} [LinearOrder α] (p q : Nat × α) (l : List (Nat × α)) :
    q ∈ insertDesc p l ↔ q = p ∨ q ∈ l := by
  induction l with
  | nil => simp [insertDesc]
  | cons r t ih =>
      simp only [insertDesc]
      by_cases h : r.2 < p.2
      · rw [if_pos h]
        simp [List.mem_cons]
      · rw [if_neg h]
        simp [List.mem_cons, ih]
        tauto

theorem pairwise_insertDesc {α : Type} [LinearOrder α] (p : Nat × α) (l : List (Nat × α))
    (h : l.Pairwise (fun x y => y.2 ≤ x.2)) :
    (insertDesc p l).Pairwise (fun x y => y.2 ≤ x.2) := by
  induction l with
  | nil => simp [insertDesc]
  | cons r t ih =>
      rcases List.pairwise_cons.mp h with ⟨hr, ht⟩
      simp only [insertDesc]
      by_cases hlt : r.2 < p.2
      · rw [if_pos hlt]
        refine List.pairwise_cons.mpr ⟨?_, h⟩
        intro y hy
        rcases List.mem_cons.mp hy with rfl | hyt
        · exact le_of_lt hlt
        · exact le_trans (hr y hyt) (le_of_lt hlt)
      · rw [if_neg hlt]
        refine List.pairwise_cons.mpr ⟨?_, ih ht⟩
        intro y hy
        rcases (mem_insertDesc p y t).mp hy with rfl | hyt
        · exact le_of_not_lt hlt
        · exact hr y hyt

theorem pairwise_sortDesc {α : Type} [LinearOrder α] (l : List (Nat × α)) :
    (sortDesc l).Pairwise (fun x y => y.2 ≤ x.2) := by
  unfold sortDesc
  have h : ∀ (l acc : List (Nat × α)), acc.Pairwise (fun x y => y.2 ≤ x.2) →
      (l.foldl (fun acc p => insertDesc p acc) acc).Pairwise (fun x y => y.2 ≤ x.2) := by
    intro l
    induction l with
    | nil => intro acc hacc; simpa using hacc
    | cons p t ih => intro acc hacc; exact ih _ (pairwise_insertDesc p acc hacc)
  exact h l [] (by simp)

theorem mem_sortDesc {α : Type} [LinearOrder α] (q : Nat × α) (l : List (Nat × α)) :
    q ∈ sortDesc l ↔ q ∈ l := by
  unfold sortDesc
  have h : ∀ (l acc : List (Nat × α)),
      q ∈ l.foldl (fun acc p => insertDesc p acc) acc ↔ q ∈ acc ∨ q ∈ l := by
    intro l
    induction l with
    | nil => intro acc; simp
    | cons p t ih =>
        intro acc
        rw [List.foldl_cons, ih, mem_insertDesc]
        simp [List.mem_cons]
        tauto
  rw [h l []]
  simp

/-! ## C4: ranking order -/

set_option maxHeartbeats 4000000 in
/-- C4 counterexample: on the spec's own two-document corpus with stop-word
`are` removed and the identity lemmatizer, the Term-Frequency search for
`"animals"` returns `[]`, not `[(0,1), (1,1)]` (the indexed content token is
`"animals."` with its trailing period, which the query token `"animals"`
does not equal); and ties are NOT broken by ascending document id: a
two-term query whose terms hit documents 1 and 0 in that order yields
`[(1,1), (0,1)]`. -/
theorem search02_ranking_counterexample :
    search02 id ["are"] (fun _ => 0) corpusCD "animals" = [] ∧
    search02 id [] (fun _ => 0) [("A", "beta"), ("B", "alpha")] "alpha beta" =
      [(1, 1), (0, 1)] := by
  constructor
  · decide
  · decide

set_option maxHeartbeats 4000000 in
/-- C4 amended: both the Term-Frequency and the TF-IDF rankings return
`(documentId, score)` pairs sorted by score in descending order — not
strictly, and with equal scores kept in the order the documents were first
encountered (Python's stable sort over dict insertion order), not by
ascending id; on the two-document corpus with stop-word `are` removed, the
query `"animals"` returns the empty ranking, because content tokens keep
attached punctuation (`"animals."`). -/
theorem search02_ranking_sorted_desc :
    (∀ (lem : String → String) (sw : List String) (hs : String → Nat)
        (docs : List (String × String)) (q : String),
        (search02 lem sw hs docs q).Pairwise (fun x y => y.2 ≤ x.2)) ∧
    (∀ (lem : String → String) (sw : List String)
        (docs : List (String × String)) (q : String),
        (searchTfIdf02 lem sw docs q).Pairwise (fun x y => y.2 ≤ x.2)) ∧
    search02 id ["are"] (fun _ => 0) corpusCD "animals" = [] := by
  refine ⟨fun lem sw hs docs q => ?_, fun lem sw docs q => ?_, by decide⟩
  · exact pairwise_sortDesc _
  · exact pairwise_sortDesc _

/-! ## C8: empty queries and minimum scores -/

theorem mem_dictSet {K V : Type} [DecidableEq K] {m : List (K × V)} {k : K} {v : V}
    {p : K × V} (hp : p ∈ dictSet k v m) : p ∈ m ∨ p = (k, v) := by
  induction m with
  | nil =>
      simp only [dictSet, List.mem_singleton] at hp
      exact Or.inr hp
  | cons e rest ih =>
      obtain ⟨k', v'⟩ := e
      simp only [dictSet] at hp
      by_cases h : k' = k
      · rw [if_pos h] at hp
        rcases List.mem_cons.mp hp with h2 | h2
        · exact Or.inr h2
        · exact Or.inl (List.mem_cons_of_mem _ h2)
      · rw [if_neg h] at hp
        rcases List.mem_cons.mp hp with h2 | h2
        · exact Or.inl (h2 ▸ List.mem_cons_self _ _)
        · rcases ih h2 with h3 | h3
          · exact Or.inl (List.mem_cons_of_mem _ h3)
          · exact Or.inr h3

/-- Folding score increments preserves "all scores at least 1". -/
theorem scoreFold_ge_one (ids : List Nat) (sc : List (Nat × Nat))
    (hsc : ∀ p ∈ sc, 1 ≤ p.2) :
    ∀ p ∈ ids.foldl (fun sc2 i => dictSet i (dictGetD i 0 sc2 + 1) sc2) sc, 1 ≤ p.2 := by
  induction ids generalizing sc with
  | nil => simpa using hsc
  | cons i rest ih =>
      rw [List.foldl_cons]
      apply ih
      intro p hp
      rcases mem_dictSet hp with h | h
      · exact hsc p h
      · rw [h]
        omega

theorem queryFold_ge_one (getIds : String → List Nat) (qts : List String)
    (sc : List (Nat × Nat)) (hsc : ∀ p ∈ sc, 1 ≤ p.2) :
    ∀ p ∈ qts.foldl
        (fun sc t => (getIds t).foldl (fun sc2 i => dictSet i (dictGetD i 0 sc2 + 1) sc2) sc)
        sc, 1 ≤ p.2 := by
  induction qts generalizing sc with
  | nil => simpa using hsc
  | cons t rest ih =>
      rw [List.foldl_cons]
      exact ih _ (scoreFold_ge_one _ _ hsc)

/-- C8: a query whose preprocessing yields no terms (empty query, or all
tokens are stop-words) produces the empty ranking in the Assignment-02
Term-Frequency search and in the Assignment-01 search (which checks
`if not query_words` explicitly); and every pair the Assignment-02
Term-Frequency search emits has score at least 1 — a document is never
emitted with score 0. -/
theorem search_empty_query_and_min_score :
    (∀ (lem : String → String) (sw : List String) (hs : String → Nat)
        (docs : List (String × String)) (q : String),
        preprocess02 lem sw q = [] → search02 lem sw hs docs q = []) ∧
    (∀ (lem : String → String) (sw : List String) (hs : String → Nat)
        (docs : List (String × String)) (q : String) (p : Nat × Nat),
        p ∈ search02 lem sw hs docs q → 1 ≤ p.2) ∧
    (∀ (lem : String → String) (sw : List String) (hs : String → Nat)
        (contents : List String) (q : String),
        ((splitWs (pyLower q)).filter (fun w => decide (w ∉ sw))).map lem = [] →
        search01 lem sw hs contents q = []) := by
  refine ⟨?_, ?_, ?_⟩
  · intro lem sw hs docs q hq
    unfold search02
    rw [hq]
    rfl
  · intro lem sw hs docs q p hp
    unfold search02 at hp
    rw [mem_sortDesc] at hp
    exact queryFold_ge_one _ _ [] (by simp) p hp
  · intro lem sw hs contents q hq
    unfold search01
    rw [if_pos hq]

set_option maxHeartbeats 4000000 in
/-- C8 witness: the all-stop-word query `"are"` returns `[]` in both engines,
and the emitted pair `(0, 2)` for query `"cats"` has score `≥ 1`. -/
theorem search_empty_query_and_min_score_witness :
    (preprocess02 id ["are"] "are" = [] ∧
      search02 id ["are"] (fun _ => 0) corpusCD "are" = []) ∧
    ((0, 2) ∈ search02 id ["are"] (fun _ => 0) corpusCD "cats" ∧ 1 ≤ (0, 2).2) ∧
    (((splitWs (pyLower "are")).filter (fun w => decide (w ∉ ["are"]))).map id = [] ∧
      search01 id ["are"] (fun _ => 0) ["Cats are small animals."] "are" = []) :=
  ⟨⟨by decide, search_empty_query_and_min_score.1 id ["are"] (fun _ => 0) corpusCD "are"
      (by decide)⟩,
   ⟨by decide, search_empty_query_and_min_score.2.1 id ["are"] (fun _ => 0) corpusCD "cats"
      (0, 2) (by decide)⟩,
   ⟨by decide, search_empty_query_and_min_score.2.2 id ["are"] (fun _ => 0)
      ["Cats are small animals."] "are" (by decide)⟩⟩

/-! ## C1: posting-list multiplicity equals in-document frequency -/

theorem count_indexTokens_self (s : SimpleDictionary String Nat) (i : Nat)
    (toks : List String) (t : String) :
    ((indexTokens s i toks).get t).count i = (s.get t).count i + toks.count t := by
  induction toks generalizing s with
  | nil => simp [indexTokens]
  | cons tok rest ih =>
      unfold indexTokens at ih ⊢
      rw [List.foldl_cons, ih]
      by_cases h : tok = t
      · subst h
        rw [SimpleDictionary.get_add_same]
        rw [List.count_append, List.count_cons]
        simp
        omega
      · rw [SimpleDictionary.get_add_ne s i h]
        rw [List.count_cons]
        simp [h]

theorem count_indexTokens_other (s : SimpleDictionary String Nat) {i j : Nat}
    (hne : j ≠ i) (toks : List String) (t : String) :
    ((indexTokens s i toks).get t).count j = (s.get t).count j := by
  induction toks generalizing s with
  | nil => simp [indexTokens]
  | cons tok rest ih =>
      unfold indexTokens at ih ⊢
      rw [List.foldl_cons, ih]
      by_cases h : tok = t
      · subst h
        rw [SimpleDictionary.get_add_same, List.count_append]
        simp [List.count_singleton, hne]
      · rw [SimpleDictionary.get_add_ne s i h]

theorem count_buildContentIndexAux_lt (lem : String → String)
    (s : SimpleDictionary String Nat) (n : Nat) (cs : List String) (t : String)
    {j : Nat} (hj : j < n) :
    ((buildContentIndexAux lem s n cs).get t).count j = (s.get t).count j := by
  induction cs generalizing s n with
  | nil => rfl
  | cons c rest ih =>
      unfold buildContentIndexAux
      rw [ih _ _ (by omega)]
      exact count_indexTokens_other s (by omega) _ t

theorem count_buildContentIndexAux_at (lem : String → String)
    (s : SimpleDictionary String Nat) (n : Nat) (cs : List String) (t : String)
    (k : Nat) (hk : k < cs.length) :
    ((buildContentIndexAux lem s n cs).get t).count (n + k) =
      (s.get t).count (n + k) + (extractNouns lem (cs.getD k "") false).count t := by
  induction cs generalizing s n k with
  | nil => simp at hk
  | cons c rest ih =>
      cases k with
      | zero =>
          unfold buildContentIndexAux
          rw [count_buildContentIndexAux_lt lem _ (n + 1) rest t (by omega)]
          simpa using count_indexTokens_self s n (extractNouns lem c false) t
      | succ k' =>
          unfold buildContentIndexAux
          have hk' : k' < rest.length := by simpa using hk
          have hshift : n + (k' + 1) = (n + 1) + k' := by omega
          rw [hshift, ih _ (n + 1) k' hk']
          rw [count_indexTokens_other s (by omega) _ t]
          simp

/-- C1: for a corpus indexed by the Assignment-01 Term-Frequency content
index, the id of document `i` occurs in `contentIndex.get(t)` exactly as many
times as the term `t` occurs among document `i`'s content tokens after
normalization (lower-case + lemmatization) and the content noun filter: the
posting list keeps duplicates, so multiplicity equals in-document frequency.
Stated for every lemmatizer and every bucket-hash function. -/
theorem contentIndex_count_eq_frequency (lem : String → String) (hs : String → Nat)
    (contents : List String) (i : Nat) (hi : i < contents.length) (t : String) :
    ((buildContentIndex lem hs contents).get t).count i =
      (extractNouns lem (contents.getD i "") false).count t := by
  unfold buildContentIndex
  have h := count_buildContentIndexAux_at lem (SimpleDictionary.empty hs) 0 contents t i hi
  rw [Nat.zero_add] at h
  rw [h, SimpleDictionary.get_empty]
  simp

/-- C1 witness: the term `"action"` occurs twice in the single document and
its id `0` appears twice in the posting list. -/
theorem contentIndex_count_eq_frequency_witness :
    (0 : Nat) < ["action action small"].length ∧
      ((buildContentIndex id (fun _ => 0) ["action action small"]).get "action").count 0 =
        (extractNouns id (["action action small"].getD 0 "") false).count "action" :=
  ⟨by decide, contentIndex_count_eq_frequency id (fun _ => 0) ["action action small"] 0
    (by decide) "action"⟩

/-! ## C10: the fixed bucket count truncates indexing at 100 documents -/

theorem foldl_invariant {α β : Type} (P : β → Prop) (f : β → α → β) (l : List α) (acc : β)
    (hacc : P acc) (hstep : ∀ b a, a ∈ l → P b → P (f b a)) : P (l.foldl f acc) := by
  induction l generalizing acc with
  | nil => simpa using hacc
  | cons a rest ih =>
      rw [List.foldl_cons]
      exact ih (f acc a) (hstep acc a (List.mem_cons_self a rest) hacc)
        (fun b a2 ha2 => hstep b a2 (List.mem_cons_of_mem a ha2))

theorem size_loadDocsAux (ds : List (String × String))
    (s : SimpleDictionary Nat (String × String)) (n : Nat) :
    (loadDocsAux s n ds).size = s.size := by
  induction ds generalizing s n with
  | nil => rfl
  | cons d rest ih => exact ih (s.add n d) (n + 1)

theorem size_loadDocuments02 (docs : List (String × String)) :
    (loadDocuments02 docs).size = 100 := by
  unfold loadDocuments02
  rw [size_loadDocsAux]
  rfl

theorem loadDocsAux_get_lt (ds : List (String × String))
    (s : SimpleDictionary Nat (String × String)) (n : Nat) {j : Nat} (hj : j < n) :
    (loadDocsAux s n ds).get j = s.get j := by
  induction ds generalizing s n with
  | nil => rfl
  | cons d rest ih =>
      unfold loadDocsAux
      rw [ih (s.add n d) (n + 1) (by omega)]
      exact SimpleDictionary.get_add_ne s d (by omega)

theorem loadDocsAux_get_at (ds : List (String × String))
    (s : SimpleDictionary Nat (String × String)) (n k : Nat) (hk : k < ds.length) :
    (loadDocsAux s n ds).get (n + k) = s.get (n + k) ++ [ds.getD k ("", "")] := by
  induction ds generalizing s n k with
  | nil => simp at hk
  | cons d rest ih =>
      cases k with
      | zero =>
          unfold loadDocsAux
          rw [loadDocsAux_get_lt rest (s.add n d) (n + 1) (by omega)]
          simpa using SimpleDictionary.get_add_same s n d
      | succ k' =>
          unfold loadDocsAux
          have hk' : k' < rest.length := by simpa using hk
          have hshift : n + (k' + 1) = (n + 1) + k' := by omega
          rw [hshift, ih (s.add n d) (n + 1) k' hk']
          rw [SimpleDictionary.get_add_ne s d (by omega)]
          simp

theorem loadDocuments02_get (docs : List (String × String)) (i : Nat)
    (hi : i < docs.length) :
    (loadDocuments02 docs).get i = [docs.getD i ("", "")] := by
  unfold loadDocuments02
  have h := loadDocsAux_get_at docs (SimpleDictionary.empty (fun n => n)) 0 i hi
  rw [Nat.zero_add] at h
  rw [h, SimpleDictionary.get_empty]
  rfl

/-- Every document id in any posting list of the Assignment-02 inverted index
is below 100: `build_inverted_index` only iterates `range(len(buckets))`. -/
theorem buildInvertedIndex02_bound (lem : String → String) (sw : List String)
    (hs : String → Nat) (docs : List (String × String)) (t : String) (x : Nat)
    (hx : x ∈ (buildInvertedIndex02 lem sw hs docs).get t) : x < 100 := by
  revert t x hx
  unfold buildInvertedIndex02
  have hmain := foldl_invariant
    (fun inv : SimpleDictionary String Nat => ∀ t x, x ∈ inv.get t → x < 100)
    (fun inv i =>
      match (loadDocuments02 docs).get i with
      | [] => inv
      | d :: _ =>
          (preprocess02 lem sw (d.1 ++ " " ++ d.2)).foldl (fun inv2 t => inv2.add t i) inv)
    (List.range (loadDocuments02 docs).size) (SimpleDictionary.empty hs) ?hacc ?hstep
  · exact hmain
  · intro t x hx
    rw [SimpleDictionary.get_empty] at hx
    cases hx
  · intro inv i hi hinv
    have hi100 : i < 100 := by
      rw [List.mem_range, size_loadDocuments02] at hi
      exact hi
    cases hsg : (loadDocuments02 docs).get i with
    | nil => simpa [hsg] using hinv
    | cons d rest =>
        simp only [hsg]
        have htoks := foldl_invariant
          (fun inv2 : SimpleDictionary String Nat => ∀ t x, x ∈ inv2.get t → x < 100)
          (fun inv2 tk => inv2.add tk i) (preprocess02 lem sw (d.1 ++ " " ++ d.2)) inv hinv
          ?_
        · exact htoks
        · intro b tk _ hb t x hx2
          rcases SimpleDictionary.mem_get_add hx2 with h | h
          · exact hb t x h
          · omega

theorem findVal_mutateBucket_ne {j k : Nat} (hne : k ≠ j) (m : List (String × ℚ))
    (b : List (Nat × List (List (String × ℚ)))) :
    findVal j (mutateBucket k m b) = findVal j b := by
  induction b with
  | nil => simp [findVal, mutateBucket, hne]
  | cons p rest ih =>
      obtain ⟨k'', vs⟩ := p
      by_cases h : k'' = k
      · subst h; simp [findVal, mutateBucket, hne]
      · by_cases h2 : k'' = j
        · subst h2; simp [findVal, mutateBucket, h]
        · simp [findVal, mutateBucket, h, h2, ih]

theorem tfMutateAdd_get_ne (s : SimpleDictionary Nat (List (String × ℚ))) {k j : Nat}
    (m : List (String × ℚ)) (hne : k ≠ j) : (tfMutateAdd s k m).get j = s.get j := by
  simp only [SimpleDictionary.get, tfMutateAdd, SimpleDictionary.bucketIdx]
  by_cases hidx : s.hashFn j % s.size = s.hashFn k % s.size
  · rw [hidx, Function.update_same]
    exact findVal_mutateBucket_ne hne m _
  · rw [Function.update_noteq hidx]

/-- Through both passes of `compute_tf_idf`, a document id `i ≥ 100` never
acquires an entry (and the bucket count stays 100). -/
theorem computeTfIdf02_absent (lem : String → String) (sw : List String)
    (docs : List (String × String)) (i : Nat) (hi : 100 ≤ i) :
    (computeTfIdf02 lem sw docs).get i = [] ∧ (computeTfIdf02 lem sw docs).size = 100 := by
  unfold computeTfIdf02
  have hQ2 : ∀ (docCount : Nat) (tdf : List (String × Nat))
      (t0 : SimpleDictionary Nat (List (String × ℚ))),
      (t0.get i = [] ∧ t0.size = 100) →
      ((tfIdfSecondPass docCount tdf t0).get i = [] ∧
        (tfIdfSecondPass docCount tdf t0).size = 100) := by
    intro docCount tdf t0 h0
    unfold tfIdfSecondPass
    refine foldl_invariant
      (fun s : SimpleDictionary Nat (List (String × ℚ)) => s.get i = [] ∧ s.size = 100)
      _ tdf t0 h0 ?_
    intro s p _ hQ
    refine foldl_invariant
      (fun s2 : SimpleDictionary Nat (List (String × ℚ)) => s2.get i = [] ∧ s2.size = 100)
      _ (List.range s.size) s hQ ?_
    intro s2 j hj hQ2
    have hj100 : j < 100 := by
      rw [List.mem_range, hQ.2] at hj
      exact hj
    cases hget : s2.get j with
    | nil => simpa [hget] using hQ2
    | cons m rest =>
        simp only [hget]
        by_cases hhas : dictHasKey p.1 m = true
        · rw [if_pos hhas]
          exact ⟨by rw [tfMutateAdd_get_ne s2 _ (by omega)]; exact hQ2.1, hQ2.2⟩
        · rw [if_neg hhas]
          exact hQ2
  have hQ1 : ((tfIdfFirstPass lem sw (loadDocuments02 docs)).2.get i = [] ∧
      (tfIdfFirstPass lem sw (loadDocuments02 docs)).2.size = 100) := by
    unfold tfIdfFirstPass
    refine foldl_invariant
      (fun acc : List (String × Nat) × SimpleDictionary Nat (List (String × ℚ)) =>
        acc.2.get i = [] ∧ acc.2.size = 100)
      _ (List.range (loadDocuments02 docs).size)
      ([], SimpleDictionary.empty (fun n => n))
      ⟨SimpleDictionary.get_empty _ i, rfl⟩ ?_
    · intro acc j hj hQ
      have hj100 : j < 100 := by
        rw [List.mem_range, size_loadDocuments02] at hj
        exact hj
      cases hget : (loadDocuments02 docs).get j with
      | nil => simpa [hget] using hQ
      | cons d rest =>
          simp only [hget]
          exact ⟨by rw [SimpleDictionary.get_add_ne _ _ (by omega)]; exact hQ.1, hQ.2⟩
  exact hQ2 _ _ _ ⟨hQ1.1, hQ1.2⟩

/-- All ids scored by `search` come from posting lists, hence are below 100. -/
theorem search02_mem_lt (lem : String → String) (sw : List String) (hs : String → Nat)
    (docs : List (String × String)) (q : String) (p : Nat × Nat)
    (hp : p ∈ search02 lem sw hs docs q) : p.1 < 100 := by
  unfold search02 at hp
  rw [mem_sortDesc] at hp
  revert p hp
  refine foldl_invariant (fun sc : List (Nat × Nat) => ∀ p ∈ sc, p.1 < 100) _
    (preprocess02 lem sw q) [] (by simp) ?_
  intro sc t _ hsc
  refine foldl_invariant (fun sc2 : List (Nat × Nat) => ∀ p ∈ sc2, p.1 < 100) _
    ((buildInvertedIndex02 lem sw hs docs).get t) sc hsc ?_
  intro sc2 j hj hsc2 p hp
  rcases mem_dictSet hp with h | h
  · exact hsc2 p h
  · rw [h]
    exact buildInvertedIndex02_bound lem sw hs docs t j hj

/-- All ids scored by `search_with_tf_idf` come from `range(100)`. -/
theorem searchTfIdf02_mem_lt (lem : String → String) (sw : List String)
    (docs : List (String × String)) (q : String) (p : Nat × ℚ)
    (hp : p ∈ searchTfIdf02 lem sw docs q) : p.1 < 100 := by
  unfold searchTfIdf02 at hp
  rw [mem_sortDesc] at hp
  revert p hp
  refine foldl_invariant (fun sc : List (Nat × ℚ) => ∀ p ∈ sc, p.1 < 100) _
    (preprocess02 lem sw q) [] (by simp) ?_
  intro sc t _ hsc
  refine foldl_invariant (fun sc2 : List (Nat × ℚ) => ∀ p ∈ sc2, p.1 < 100) _
    (List.range (computeTfIdf02 lem sw docs).size) sc hsc ?_
  intro sc2 j hj hsc2 p hp
  have hj100 : j < 100 := by
    rw [List.mem_range, (computeTfIdf02_absent lem sw docs 100 (by omega)).2] at hj
    exact hj
  cases hget : (computeTfIdf02 lem sw docs).get j with
  | nil =>
      simp only [hget] at hp
      exact hsc2 p hp
  | cons m rest =>
      simp only [hget] at hp
      by_cases hhas : dictHasKey t m = true
      · rw [if_pos hhas] at hp
        rcases mem_dictSet hp with h | h
        · exact hsc2 p h
        · rw [h]
          exact hj100
      · rw [if_neg hhas] at hp
        exact hsc2 p hp

/-- C10: the Assignment-02 engine iterates document ids only over
`range(100)` (the store's fixed bucket count) when building the inverted
index and the TF-IDF table, so in a corpus with more than 100 documents every
document with id `i ≥ 100` is stored in the document store, yet appears in no
posting list, receives no TF-IDF entry, and is returned by no query of either
search. -/
theorem documents_beyond_bucket_count_invisible (lem : String → String)
    (sw : List String) (hs : String → Nat) (docs : List (String × String))
    (i : Nat) (h100 : 100 ≤ i) (hi : i < docs.length) :
    (loadDocuments02 docs).get i = [docs.getD i ("", "")] ∧
    (∀ t : String, i ∉ (buildInvertedIndex02 lem sw hs docs).get t) ∧
    (computeTfIdf02 lem sw docs).get i = [] ∧
    (∀ (q : String) (sc : Nat), (i, sc) ∉ search02 lem sw hs docs q) ∧
    (∀ (q : String) (sc : ℚ), (i, sc) ∉ searchTfIdf02 lem sw docs q) := by
  refine ⟨loadDocuments02_get docs i hi, ?_, (computeTfIdf02_absent lem sw docs i h100).1,
    ?_, ?_⟩
  · intro t hx
    have := buildInvertedIndex02_bound lem sw hs docs t i hx
    omega
  · intro q sc hp
    have := search02_mem_lt lem sw hs docs q (i, sc) hp
    simp at this
    omega
  · intro q sc hp
    have := searchTfIdf02_mem_lt lem sw docs q (i, sc) hp
    simp at this
    omega

/-- C10 witness: a 101-document corpus; document 100 is loaded but invisible
to indexing and search. -/
theorem documents_beyond_bucket_count_invisible_witness :
    100 ≤ 100 ∧ 100 < corpus101.length ∧
      ((loadDocuments02 corpus101).get 100 = [corpus101.getD 100 ("", "")] ∧
        (∀ t : String, 100 ∉ (buildInvertedIndex02 id [] (fun _ => 0) corpus101).get t) ∧
        (computeTfIdf02 id [] corpus101).get 100 = [] ∧
        (∀ (q : String) (sc : Nat), (100, sc) ∉ search02 id [] (fun _ => 0) corpus101 q) ∧
        (∀ (q : String) (sc : ℚ), (100, sc) ∉ searchTfIdf02 id [] corpus101 q)) :=
  ⟨by decide, by decide,
    documents_beyond_bucket_count_invisible id [] (fun _ => 0) corpus101 100 (by decide)
      (by decide)⟩

/-! ## C9: symmetry of the term-document graph -/

theorem adjPN_append_nil (g : PNGraph) (n x : PNode) :
    adjPN (g ++ [(n, [])]) x = adjPN g x := by
  induction g with
  | nil =>
      by_cases h : n = x <;> simp [adjPN, h]
  | cons p rest ih =>
      obtain ⟨k, ns⟩ := p
      by_cases h : k = x <;> simp [adjPN, h, ih]

theorem adjPN_addNodePN (g : PNGraph) (n x : PNode) :
    adjPN (addNodePN g n) x = adjPN g x := by
  unfold addNodePN
  by_cases h : n ∈ pnKeys g
  · rw [if_pos h]
  · rw [if_neg h]
    exact adjPN_append_nil g n x

theorem mem_pnKeys_addNodePN_self (g : PNGraph) (n : PNode) :
    n ∈ pnKeys (addNodePN g n) := by
  unfold addNodePN
  by_cases h : n ∈ pnKeys g
  · rw [if_pos h]
    exact h
  · rw [if_neg h]
    simp [pnKeys]

theorem mem_pnKeys_addNodePN_mono (g : PNGraph) (n m : PNode) (h : m ∈ pnKeys g) :
    m ∈ pnKeys (addNodePN g n) := by
  unfold addNodePN
  by_cases h2 : n ∈ pnKeys g
  · rw [if_pos h2]
    exact h
  · rw [if_neg h2]
    simp [pnKeys] at h ⊢
    exact Or.inl h

theorem pnKeys_addNbrPN (n m : PNode) (g : PNGraph) :
    pnKeys (addNbrPN n m g) = pnKeys g := by
  induction g with
  | nil => rfl
  | cons p rest ih =>
      obtain ⟨k, ns⟩ := p
      by_cases h : k = n <;> simp [addNbrPN, pnKeys, h] <;> simpa [pnKeys] using ih

theorem adjPN_addNbrPN_ne (n m : PNode) (g : PNGraph) {x : PNode} (hne : x ≠ n) :
    adjPN (addNbrPN n m g) x = adjPN g x := by
  induction g with
  | nil => rfl
  | cons p rest ih =>
      obtain ⟨k, ns⟩ := p
      have hnx : ¬ n = x := fun h => hne h.symm
      by_cases hk : k = n
      · simp [addNbrPN, adjPN, hk, hnx, ih]
      · by_cases hx : k = x
        · simp [addNbrPN, adjPN, hk, hx, hne]
        · simp [addNbrPN, adjPN, hk, hx, ih]

theorem adjPN_addNbrPN_self (n m : PNode) (g : PNGraph) (hk : n ∈ pnKeys g) :
    adjPN (addNbrPN n m g) n = insertNbr (adjPN g n) m := by
  induction g with
  | nil => simp [pnKeys] at hk
  | cons p rest ih =>
      obtain ⟨k, ns⟩ := p
      by_cases h : k = n
      · simp [addNbrPN, adjPN, h]
      · have hk2 : n ∈ pnKeys rest := by
          simp [pnKeys] at hk ⊢
          rcases hk with h2 | h2
          · exact absurd h2.symm h
          · exact h2
        simp [addNbrPN, adjPN, h, ih hk2]

theorem mem_insertNbr (ns : List PNode) (m y : PNode) :
    y ∈ insertNbr ns m ↔ y ∈ ns ∨ y = m := by
  unfold insertNbr
  by_cases h : m ∈ ns
  · rw [if_pos h]
    constructor
    · exact Or.inl
    · intro hy
      rcases hy with hy | rfl
      · exact hy
      · exact h
  · rw [if_neg h]
    simp

/-- Adjacency after `add_edge(a, b)`: the old edges plus the two new
directions. -/
theorem mem_adjPN_addEdgePN (g : PNGraph) (a b x y : PNode) :
    y ∈ adjPN (addEdgePN g a b) x ↔
      y ∈ adjPN g x ∨ (x = a ∧ y = b) ∨ (x = b ∧ y = a) := by
  have ha1 : a ∈ pnKeys (addNodePN (addNodePN g a) b) :=
    mem_pnKeys_addNodePN_mono _ b a (mem_pnKeys_addNodePN_self g a)
  have hb2 : b ∈ pnKeys (addNbrPN a b (addNodePN (addNodePN g a) b)) := by
    rw [pnKeys_addNbrPN]
    exact mem_pnKeys_addNodePN_self _ b
  have hadj1 : ∀ z, adjPN (addNodePN (addNodePN g a) b) z = adjPN g z := fun z => by
    rw [adjPN_addNodePN, adjPN_addNodePN]
  have hx2 : ∀ z, adjPN (addNbrPN a b (addNodePN (addNodePN g a) b)) z =
      if z = a then insertNbr (adjPN g a) b else adjPN g z := by
    intro z
    by_cases hz : z = a
    · rw [hz, if_pos rfl, adjPN_addNbrPN_self a b _ ha1, hadj1 a]
    · rw [if_neg hz, adjPN_addNbrPN_ne a b _ hz, hadj1 z]
  have hx3 : ∀ z, adjPN (addEdgePN g a b) z =
      if z = b then insertNbr (if b = a then insertNbr (adjPN g a) b else adjPN g b) a
      else if z = a then insertNbr (adjPN g a) b else adjPN g z := by
    intro z
    unfold addEdgePN
    by_cases hz : z = b
    · rw [hz, if_pos rfl, adjPN_addNbrPN_self b a _ hb2, hx2 b]
    · rw [if_neg hz, adjPN_addNbrPN_ne b a _ hz, hx2 z]
  rw [hx3 x]
  by_cases hxb : x = b
  · rw [if_pos hxb]
    by_cases hba : b = a
    · rw [if_pos hba, mem_insertNbr, mem_insertNbr]
      have hxa : x = a := hxb.trans hba
      simp only [hxa, hba]
      tauto
    · rw [if_neg hba, mem_insertNbr]
      simp only [hxb]
      tauto
  · rw [if_neg hxb]
    by_cases hxa : x = a
    · rw [if_pos hxa, mem_insertNbr]
      have hab : ¬ a = b := fun h => hxb (hxa.trans h)
      simp only [hxa]
      tauto
    · rw [if_neg hxa]
      tauto

theorem addEdgePN_symm (g : PNGraph) (a b : PNode) (hsym : SymmGraph g) :
    SymmGraph (addEdgePN g a b) := by
  intro x y
  rw [mem_adjPN_addEdgePN, mem_adjPN_addEdgePN]
  have h := hsym x y
  tauto

theorem symmGraph_empty : SymmGraph ([] : PNGraph) := by
  intro a b
  simp [adjPN]

theorem addDocEdges_symm (g : PNGraph) (docNode : PNode) (terms : List String)
    (hsym : SymmGraph g) : SymmGraph (addDocEdges g docNode terms) := by
  unfold addDocEdges
  exact foldl_invariant SymmGraph _ terms g hsym
    (fun g2 t _ h => addEdgePN_symm g2 _ _ h)

theorem addTermEdges_symm (g : PNGraph) (terms : List String)
    (hsym : SymmGraph g) : SymmGraph (addTermEdges g terms) := by
  unfold addTermEdges
  exact foldl_invariant SymmGraph _ (combs2 terms) g hsym
    (fun g2 p _ h => addEdgePN_symm g2 _ _ h)

theorem buildGraphAux_symm (lem : String → String) (sw : List String)
    (docsList : List String) (g : PNGraph) (i : Nat) (hsym : SymmGraph g) :
    SymmGraph (buildGraphAux lem sw g i docsList) := by
  induction docsList generalizing g i with
  | nil => exact hsym
  | cons c rest ih =>
      unfold buildGraphAux
      exact ih _ _ (addTermEdges_symm _ _ (addDocEdges_symm _ _ _ hsym))

/-- C9: the term-document graph is symmetric — `b` is a neighbour of `a` iff
`a` is a neighbour of `b` — after every edge insertion (`add_edge` preserves
symmetry from any symmetric state) and hence for the whole graph built from
any corpus. -/
theorem termDocumentGraph_symmetric :
    (∀ (g : PNGraph) (a b : PNode), SymmGraph g → SymmGraph (addEdgePN g a b)) ∧
    (∀ (lem : String → String) (sw : List String) (docsList : List String),
        SymmGraph (buildGraphPN lem sw docsList)) :=
  ⟨addEdgePN_symm,
   fun lem sw docsList => buildGraphAux_symm lem sw docsList [] 0 symmGraph_empty⟩

/-- C9 witness: one edge insertion into the empty (trivially symmetric)
graph yields a symmetric graph. -/
theorem termDocumentGraph_symmetric_witness :
    SymmGraph (addEdgePN [] (PNode.term "x") (PNode.doc 0)) :=
  termDocumentGraph_symmetric.1 [] (PNode.term "x") (PNode.doc 0) symmGraph_empty

/-! ## C6: proximal-nodes retrieval -/

theorem bfs_nil (g : PNGraph) (qs docsList : List String) (visited : List PNode)
    (connected : List Nat) :
    bfs g qs docsList [] visited connected = (visited, connected) := by
  rw [bfs]

theorem bfs_cons_mem (g : PNGraph) (qs docsList : List String) {n : PNode}
    (rest : List PNode) {visited : List PNode} (connected : List Nat)
    (hm : n ∈ visited) :
    bfs g qs docsList (n :: rest) visited connected =
      bfs g qs docsList rest visited connected := by
  rw [bfs, dif_pos hm]

theorem bfs_cons_not_mem (g : PNGraph) (qs docsList : List String) {n : PNode}
    (rest : List PNode) {visited : List PNode} (connected : List Nat)
    (hm : ¬ n ∈ visited) :
    bfs g qs docsList (n :: rest) visited connected =
      bfs g qs docsList (rest ++ termNeighbors (adjPN g n)) (visited ++ [n])
        (docCheckFold qs docsList (adjPN g n) connected) := by
  rw [bfs, dif_neg hm]

theorem mem_termNeighbors (ns : List PNode) (x : PNode) :
    x ∈ termNeighbors ns ↔ x ∈ ns ∧ isTermNode x = true := by
  unfold termNeighbors
  exact List.mem_filter

theorem mem_docCheckFold (qs docsList : List String) (ns : List PNode)
    (connected : List Nat) (j : Nat) :
    j ∈ docCheckFold qs docsList ns connected ↔
      j ∈ connected ∨ (PNode.doc j ∈ ns ∧ pnFilter qs docsList j = true) := by
  induction ns generalizing connected with
  | nil => simp [docCheckFold]
  | cons nb rest ih =>
      cases nb with
      | term s =>
          have hstep : docCheckFold qs docsList (PNode.term s :: rest) connected =
              docCheckFold qs docsList rest connected := rfl
          rw [hstep, ih]
          simp
      | doc j' =>
          have hstep : docCheckFold qs docsList (PNode.doc j' :: rest) connected =
              docCheckFold qs docsList rest
                (if pnFilter qs docsList j' = true then
                  (if j' ∈ connected then connected else connected ++ [j'])
                 else connected) := rfl
          rw [hstep, ih]
          by_cases hf : pnFilter qs docsList j' = true
          · rw [if_pos hf]
            by_cases hj : j' ∈ connected
            · rw [if_pos hj]
              simp only [List.mem_cons, PNode.doc.injEq]
              constructor
              · rintro (h | ⟨h1, h2⟩)
                · exact Or.inl h
                · exact Or.inr ⟨Or.inr h1, h2⟩
              · rintro (h | ⟨h1 | h1, h2⟩)
                · exact Or.inl h
                · subst h1
                  exact Or.inl hj
                · exact Or.inr ⟨h1, h2⟩
            · rw [if_neg hj]
              simp only [List.mem_append, List.mem_singleton, List.mem_cons,
                PNode.doc.injEq]
              constructor
              · rintro ((h | h | h) | ⟨h1, h2⟩)
                · exact Or.inl h
                · subst h
                  exact Or.inr ⟨Or.inl rfl, hf⟩
                · cases h
                · exact Or.inr ⟨Or.inr h1, h2⟩
              · rintro (h | ⟨h1 | h1, h2⟩)
                · exact Or.inl (Or.inl h)
                · subst h1
                  exact Or.inl (Or.inr (Or.inl rfl))
                · exact Or.inr ⟨h1, h2⟩
          · rw [if_neg hf]
            simp only [List.mem_cons, PNode.doc.injEq]
            constructor
            · rintro (h | ⟨h1, h2⟩)
              · exact Or.inl h
              · exact Or.inr ⟨Or.inr h1, h2⟩
            · rintro (h | ⟨h1 | h1, h2⟩)
              · exact Or.inl h
              · subst h1
                exact absurd h2 hf
              · exact Or.inr ⟨h1, h2⟩

/-- Everything already visited or queued ends up in the final visited set. -/
theorem bfs_mem_final_visited (g : PNGraph) (qs docsList : List String) :
    ∀ (queue visited : List PNode) (connected : List Nat) (x : PNode),
      (x ∈ visited ∨ x ∈ queue) →
      x ∈ (bfs g qs docsList queue visited connected).1 := by
  intro queue visited connected
  induction queue, visited, connected using bfs.induct g qs docsList with
  | case1 visited connected =>
      intro x hx
      rw [bfs_nil]
      rcases hx with h | h
      · exact h
      · cases h
  | case2 n rest visited connected hnv ih =>
      intro x hx
      rw [bfs_cons_mem g qs docsList rest connected hnv]
      apply ih
      rcases hx with h | h
      · exact Or.inl h
      · rcases List.mem_cons.mp h with rfl | h2
        · exact Or.inl hnv
        · exact Or.inr h2
  | case3 n rest visited connected hnv ih =>
      intro x hx
      rw [bfs_cons_not_mem g qs docsList rest connected hnv]
      apply ih
      rcases hx with h | h
      · exact Or.inl (List.mem_append_left _ h)
      · rcases List.mem_cons.mp h with rfl | h2
        · exact Or.inl (List.mem_append_right _ (List.mem_singleton.mpr rfl))
        · exact Or.inr (List.mem_append_left _ h2)

/-- Characterization of the final connected set: a document is collected iff
it was already collected or it is a (filter-passing) document neighbour of a
node processed during the traversal. -/
theorem bfs_mem_connected (g : PNGraph) (qs docsList : List String) :
    ∀ (queue visited : List PNode) (connected : List Nat) (j : Nat),
      j ∈ (bfs g qs docsList queue visited connected).2 ↔
        j ∈ connected ∨ (pnFilter qs docsList j = true ∧
          ∃ x, x ∈ (bfs g qs docsList queue visited connected).1 ∧ x ∉ visited ∧
            PNode.doc j ∈ adjPN g x) := by
  intro queue visited connected
  induction queue, visited, connected using bfs.induct g qs docsList with
  | case1 visited connected =>
      intro j
      rw [bfs_nil]
      constructor
      · exact Or.inl
      · rintro (h | ⟨_, x, hx1, hx2, _⟩)
        · exact h
        · exact absurd hx1 hx2
  | case2 n rest visited connected hnv ih =>
      intro j
      rw [bfs_cons_mem g qs docsList rest connected hnv]
      exact ih j
  | case3 n rest visited connected hnv ih =>
      intro j
      rw [bfs_cons_not_mem g qs docsList rest connected hnv]
      rw [ih j, mem_docCheckFold]
      constructor
      · rintro ((h | ⟨hdoc, hf⟩) | ⟨hf, x, hx1, hx2, hx3⟩)
        · exact Or.inl h
        · refine Or.inr ⟨hf, n, ?_, hnv, hdoc⟩
          exact bfs_mem_final_visited g qs docsList _ _ _ n
            (Or.inl (List.mem_append_right _ (List.mem_singleton.mpr rfl)))
        · exact Or.inr ⟨hf, x, hx1, fun hx => hx2 (List.mem_append_left _ hx), hx3⟩
      · rintro (h | ⟨hf, x, hx1, hx2, hx3⟩)
        · exact Or.inl (Or.inl h)
        · by_cases hxn : x = n
          · subst hxn
            exact Or.inl (Or.inr ⟨hx3, hf⟩)
          · refine Or.inr ⟨hf, x, hx1, ?_, hx3⟩
            intro hx
            rcases List.mem_append.mp hx with h2 | h2
            · exact hx2 h2
            · exact hxn (List.mem_singleton.mp h2)

/-- Soundness: every node the traversal visits is reachable from a query
seed node through term-node steps. -/
theorem bfs_visited_sound (g : PNGraph) (qs docsList : List String) :
    ∀ (queue visited : List PNode) (connected : List Nat),
      (∀ x ∈ visited, PNReach g qs x) →
      (∀ x ∈ queue, PNReach g qs x) →
      ∀ x ∈ (bfs g qs docsList queue visited connected).1, PNReach g qs x := by
  intro queue visited connected
  induction queue, visited, connected using bfs.induct g qs docsList with
  | case1 visited connected =>
      intro hv _ x hx
      rw [bfs_nil] at hx
      exact hv x hx
  | case2 n rest visited connected hnv ih =>
      intro hv hq x hx
      rw [bfs_cons_mem g qs docsList rest connected hnv] at hx
      exact ih hv (fun y hy => hq y (List.mem_cons_of_mem n hy)) x hx
  | case3 n rest visited connected hnv ih =>
      intro hv hq x hx
      rw [bfs_cons_not_mem g qs docsList rest connected hnv] at hx
      have hn : PNReach g qs n := hq n (List.mem_cons_self n rest)
      refine ih ?_ ?_ x hx
      · intro y hy
        rcases List.mem_append.mp hy with h | h
        · exact hv y h
        · rw [List.mem_singleton.mp h]
          exact hn
      · intro y hy
        rcases List.mem_append.mp hy with h | h
        · exact hq y (List.mem_cons_of_mem n h)
        · rw [mem_termNeighbors] at h
          obtain ⟨q, hq2, hreach⟩ := hn
          exact ⟨q, hq2, Relation.ReflTransGen.tail hreach ⟨h.1, h.2⟩⟩

/-- Closure: at the end of the traversal, the visited set is closed under
term-node adjacency. -/
theorem bfs_visited_closed (g : PNGraph) (qs docsList : List String) :
    ∀ (queue visited : List PNode) (connected : List Nat),
      (∀ m ∈ visited, ∀ u ∈ adjPN g m, isTermNode u = true → u ∈ visited ∨ u ∈ queue) →
      ∀ m ∈ (bfs g qs docsList queue visited connected).1,
        ∀ u ∈ adjPN g m, isTermNode u = true →
          u ∈ (bfs g qs docsList queue visited connected).1 := by
  intro queue visited connected
  induction queue, visited, connected using bfs.induct g qs docsList with
  | case1 visited connected =>
      intro hinv m hm u hu ht
      rw [bfs_nil] at hm ⊢
      rcases hinv m hm u hu ht with h | h
      · exact h
      · cases h
  | case2 n rest visited connected hnv ih =>
      intro hinv m hm u hu ht
      rw [bfs_cons_mem g qs docsList rest connected hnv] at hm ⊢
      refine ih ?_ m hm u hu ht
      intro m2 hm2 u2 hu2 ht2
      rcases hinv m2 hm2 u2 hu2 ht2 with h | h
      · exact Or.inl h
      · rcases List.mem_cons.mp h with rfl | h2
        · exact Or.inl hnv
        · exact Or.inr h2
  | case3 n rest visited connected hnv ih =>
      intro hinv m hm u hu ht
      rw [bfs_cons_not_mem g qs docsList rest connected hnv] at hm ⊢
      refine ih ?_ m hm u hu ht
      intro m2 hm2 u2 hu2 ht2
      rcases List.mem_append.mp hm2 with h | h
      · rcases hinv m2 h u2 hu2 ht2 with h2 | h2
        · exact Or.inl (List.mem_append_left _ h2)
        · rcases List.mem_cons.mp h2 with rfl | h3
          · exact Or.inl (List.mem_append_right _ (List.mem_singleton.mpr rfl))
          · exact Or.inr (List.mem_append_left _ h3)
      · have hm2n : m2 = n := List.mem_singleton.mp h
        subst hm2n
        exact Or.inr (List.mem_append_right _ ((mem_termNeighbors _ u2).mpr ⟨hu2, ht2⟩))

/-- The visited set of `retrieve_documents` is exactly the set of nodes
reachable from the query seed nodes. -/
theorem visitedPN_iff (g : PNGraph) (qs docsList : List String) (x : PNode) :
    x ∈ visitedPN g qs docsList ↔ PNReach g qs x := by
  constructor
  · intro hx
    refine bfs_visited_sound g qs docsList (pnSeeds qs) [] [] ?_ ?_ x hx
    · intro y hy
      cases hy
    · intro y hy
      rw [pnSeeds, List.mem_map] at hy
      obtain ⟨q, hq, rfl⟩ := hy
      exact ⟨q, hq, Relation.ReflTransGen.refl⟩
  · rintro ⟨q, hq, hreach⟩
    induction hreach with
    | refl =>
        refine bfs_mem_final_visited g qs docsList _ _ _ _ (Or.inr ?_)
        exact List.mem_map.mpr ⟨q, hq, rfl⟩
    | tail hab hbc ih =>
        exact bfs_visited_closed g qs docsList (pnSeeds qs) [] []
          (fun m hm => by cases hm) _ ih _ hbc.1 hbc.2

/-- C6: proximal-nodes retrieval returns exactly the documents that are
graph-adjacent to some node the breadth-first traversal visits (a node
reachable through term-node steps from the nodes the raw query strings
denote) AND whose lower-cased raw text contains at least one of the original
query terms as a substring — reachability is necessary but not sufficient.
On the two-document corpus with query terms `cats, dogs` the result is the
document set with ids 0 and 1; and a query string naming a document node
(`doc_0`) seeds the traversal at that document, as in the source. -/
theorem proximalNodes_retrieval_spec :
    (∀ (g : PNGraph) (qs docsList : List String) (j : Nat),
        j ∈ retrievePN g qs docsList ↔
          ((∃ x : PNode, PNReach g qs x ∧ PNode.doc j ∈ adjPN g x) ∧
            pnFilter qs docsList j = true)) ∧
    retrievePN (buildGraphPN id ["are"] docsCD) ["cats", "dogs"] docsCD = [0, 1] ∧
    retrievePN (buildGraphPN id ["here"] ["see doc_0 here"]) ["doc_0"]
      ["see doc_0 here"] = [0] := by
  refine ⟨?_, ?_, ?_⟩
  · intro g qs docsList j
    unfold retrievePN
    rw [bfs_mem_connected g qs docsList (pnSeeds qs) [] [] j]
    constructor
    · rintro (h | ⟨hf, x, hx1, _, hx3⟩)
      · cases h
      · exact ⟨⟨x, (visitedPN_iff g qs docsList x).mp hx1, hx3⟩, hf⟩
    · rintro ⟨⟨x, hx, hadj⟩, hf⟩
      refine Or.inr ⟨hf, x, ?_, List.not_mem_nil x, hadj⟩
      exact (visitedPN_iff g qs docsList x).mpr hx
  · simp +decide [retrievePN, bfs, buildGraphPN, buildGraphAux, preprocess03, adjPN,
      termNeighbors, docCheckFold, pnFilter, charsInfix, pyLower, splitWs, wordsAux,
      pyIsAlnum, addTermEdges, addDocEdges, addEdgePN, addNbrPN, addNodePN, insertNbr,
      combs2, pnKeys, isTermNode, pnSeeds, nodeOfName, canonNatOfChars, digitsToNatAux]
  · simp +decide [retrievePN, bfs, buildGraphPN, buildGraphAux, preprocess03, adjPN,
      termNeighbors, docCheckFold, pnFilter, charsInfix, pyLower, splitWs, wordsAux,
      pyIsAlnum, addTermEdges, addDocEdges, addEdgePN, addNbrPN, addNodePN, insertNbr,
      combs2, pnKeys, isTermNode, pnSeeds, nodeOfName, canonNatOfChars, digitsToNatAux]
